import Mathlib

/-!
# Kolumn template engine: formal model and verification

The repository ships illustrative pipeline fixtures (Airflow/Dagster DAGs and an
enhanced resource-reference demo) whose embedded marker expressions are the
input language of the engine described in the specification: an expression
parser, an evaluator over a multi-provider resource catalog, a renderer, a
structural extractor, and a dependency-graph builder.  The engine itself is not
part of the checked-in sources, so every component below is modelled from the
specification text and checked against the marker syntax exhibited by the
fixtures.  All definitions are executable; machine-level concerns do not arise
(the engine works over character data and small integers).
-/

namespace Kolumn

/-- Characters that the marker grammar treats specially.  They are produced
from their code points so that concrete templates can be written in proofs
without embedding the delimiters in string literals. -/
def obr : Char := Char.ofNat 123

/-- Closing marker brace, from its code point. -/
def cbr : Char := Char.ofNat 125

/-- Single-quote character used by condition and argument literals. -/
def quoteCh : Char := Char.ofNat 39

/-- Modelled from the spec: resolved values are typed as string, integer,
float, or boolean (§4.2).  Float values carry their decimal literal, which is
also their canonical string form. -/
inductive Value
  | str (s : String)
  | int (n : Int)
  | float (lit : String)
  | bool (b : Bool)
deriving Repr, DecidableEq

/-- Modelled from the spec: the canonical string form of a resolved value,
substituted byte-for-byte into the rendered document (§4.2). -/
def canon : Value → String
  | .str s => s
  | .int n => toString n
  | .float lit => lit
  | .bool b => if b then "true" else "false"

/-- Modelled from the spec: conditional conditions are restricted to
equality/inequality comparisons against context values, e.g. the current
environment name (§4.2). -/
inductive Cond
  | envEq (v : String)
  | envNe (v : String)
deriving Repr, DecidableEq

/-- Modelled from the spec: the expression tree of the marker language (§3).
`concat` represents the segment sequence of a conditional branch, which may
interleave literal text with nested marker expressions. -/
inductive Expression
  | literal (v : Value)
  | variableRef (scope name : String)
  | envRef (name : String)
  | resourceRef (kind name : String) (property : Option String)
  | crossProviderRef (provider kind name : String) (property : Option String)
  | conditional (c : Cond) (thenB elseB : Expression)
  | functionCall (name : String) (args : List Expression)
  | concat (parts : List Expression)

/-- Modelled from the spec: the resolution-error taxonomy (§7). -/
inductive ResolutionError
  | unknownVariable (name : String)
  | missingEnvVar (name : String)
  | unknownResource (provider kind name : String)
  | unknownProperty (kind name property : String)
  | unknownFunction (name : String)
  | badArguments (name : String)
  | recursionLimitExceeded
  | danglingReference (node : String)
deriving Repr, DecidableEq

/-- Modelled from the spec: one resource entry of the catalog, keyed by
(provider, kind, name) and carrying a property bag (§3, §4.3). -/
structure CatalogEntry where
  provider : String
  kind : String
  name : String
  props : List (String × Value)
deriving Repr, DecidableEq

/-- Modelled from the spec: the resource catalog, a read-only mapping
provider → kind → name → property map, populated before rendering (§3). -/
def Catalog := List CatalogEntry

/-- Association-list lookup used by the variable, environment-variable and
property tables. -/
def lookupAssoc {α : Type} (table : List (String × α)) (key : String) : Option α :=
  match table with
  | [] => none
  | (k, v) :: rest => if k = key then some v else lookupAssoc rest key

/-- Modelled from the spec: `lookup(provider, kind, name) -> PropertyMap | NotFound`
(§4.3). -/
def lookupCat (cat : Catalog) (provider kind name : String) : Option (List (String × Value)) :=
  match cat with
  | [] => none
  | e :: rest =>
      if e.provider = provider ∧ e.kind = kind ∧ e.name = name then some e.props
      else lookupCat rest provider kind name

/-- Modelled from the spec: the immutable per-render snapshot against which
expressions are resolved — target environment name, variable bindings,
environment-variable table and the resource catalog (§3).  Variable bindings
map to expressions so that a binding may itself reference another variable,
which is what makes resolution chains (and the chain-depth bound) possible. -/
structure ResolutionContext where
  environment : String
  defaultProvider : String
  vars : List (String × Expression)
  envVars : List (String × Value)
  catalog : Catalog

/-- Modelled from the spec: evaluation of a conditional's condition, an
equality or inequality comparison against the current environment name (§4.2). -/
def condHolds (ctx : ResolutionContext) : Cond → Bool
  | .envEq v => decide (ctx.environment = v)
  | .envNe v => decide (ctx.environment ≠ v)

/-- Modelled from the spec: the fixed function table mapping function name to
its arity; the fixtures exercise `date_trunc` and `json_extract` (§4.2). -/
def functionTable : List (String × Nat) :=
  [("date_trunc", 2), ("json_extract", 2)]

/-- Modelled from the spec: projection of an optional property out of a
resource's property map; a resource reference without a property resolves to
the resource's name, an absent property is `UnknownProperty` (§4.2). -/
def projectProperty (kind name : String) (property : Option String)
    (props : List (String × Value)) : Except ResolutionError Value :=
  match property with
  | none => .ok (.str name)
  | some p =>
      match lookupAssoc props p with
      | none => .error (.unknownProperty kind name p)
      | some v => .ok v

/-- Modelled from the spec: the provider-aware rendering of a function call as
its canonical call syntax (§4.2). -/
def renderFunction (name : String) (args : List Value) : Value :=
  .str (name ++ "(" ++ String.intercalate ", " (args.map canon) ++ ")")

mutual

/-- Modelled from the spec: `evaluate(Expression, ResolutionContext) ->
ResolvedValue | ResolutionError` (§4.2).  The `Nat` argument is the remaining
resolution-chain depth: it decreases on every variable-to-variable hop and
produces `RecursionLimitExceeded` when exhausted (§5). -/
def evaluate (ctx : ResolutionContext) : Nat → Expression → Except ResolutionError Value
  | _, .literal v => .ok v
  | fuel, .variableRef _ name =>
      match lookupAssoc ctx.vars name with
      | none => .error (.unknownVariable name)
      | some e =>
          match fuel with
          | 0 => .error .recursionLimitExceeded
          | fuel' + 1 => evaluate ctx fuel' e
  | _, .envRef name =>
      match lookupAssoc ctx.envVars name with
      | none => .error (.missingEnvVar name)
      | some v => .ok v
  | _, .resourceRef kind name property =>
      match lookupCat ctx.catalog ctx.defaultProvider kind name with
      | none => .error (.unknownResource ctx.defaultProvider kind name)
      | some props => projectProperty kind name property props
  | _, .crossProviderRef provider kind name property =>
      match lookupCat ctx.catalog provider kind name with
      | none => .error (.unknownResource provider kind name)
      | some props => projectProperty kind name property props
  | fuel, .conditional c t e =>
      if condHolds ctx c then evaluate ctx fuel t else evaluate ctx fuel e
  | fuel, .functionCall name args =>
      match lookupAssoc functionTable name with
      | none => .error (.unknownFunction name)
      | some arity =>
          if args.length = arity then
            match evalArgs ctx fuel args with
            | .error err => .error err
            | .ok vs => .ok (renderFunction name vs)
          else .error (.badArguments name)
  | fuel, .concat parts =>
      match evalArgs ctx fuel parts with
      | .error err => .error err
      | .ok vs => .ok (.str (String.join (vs.map canon)))
termination_by fuel e => (fuel, sizeOf e)

/-- Modelled from the spec: left-to-right evaluation of an argument list,
stopping at the first error (§4.2). -/
def evalArgs (ctx : ResolutionContext) : Nat → List Expression → Except ResolutionError (List Value)
  | _, [] => .ok []
  | fuel, e :: es =>
      match evaluate ctx fuel e with
      | .error err => .error err
      | .ok v =>
          match evalArgs ctx fuel es with
          | .error err => .error err
          | .ok vs => .ok (v :: vs)
termination_by fuel es => (fuel, sizeOf es)

end

/-- Modelled from the spec: the maximum resolution-chain depth bounding
recursive variable chains (§5; the parser's generous default depth is 32,
§4.1). -/
def maxResolutionDepth : Nat := 32

/-- Modelled from the spec: resolution of one expression against a context,
with the default chain-depth budget. -/
def resolve (ctx : ResolutionContext) (e : Expression) : Except ResolutionError Value :=
  evaluate ctx maxResolutionDepth e

/-- Modelled from the spec: the kinds of marker-syntax failure — unterminated
marker, empty property chain, unknown conditional keyword, and their
function-call and conditional-nesting analogues (§4.1). -/
inductive ParseErrorKind
  | unterminatedMarker
  | emptyPropertyChain
  | unknownConditionalKeyword
  | badFunctionSyntax
  | mismatchedConditional
  | depthLimitExceeded
deriving Repr, DecidableEq

/-- Modelled from the spec: a `ParseError` carries the byte offset and the
offending fragment (§4.1). -/
structure ParseError where
  offset : Nat
  fragment : String
  kind : ParseErrorKind
deriving Repr, DecidableEq

/-- One token of the marker scan: a literal character run, a complete marker
expression, or one of the three conditional-structure markers.  Each token
keeps the raw source characters of its span. -/
inductive Token
  | lit (raw : List Char)
  | expr (raw : List Char) (e : Expression)
  | whenTok (raw : List Char) (c : Cond)
  | elseTok (raw : List Char)
  | endTok (raw : List Char)

/-- Raw source span of a token. -/
def rawOfToken : Token → List Char
  | .lit r => r
  | .expr r _ => r
  | .whenTok r _ => r
  | .elseTok r => r
  | .endTok r => r

/-- Concatenated raw source of a token list. -/
def rawsTok (toks : List Token) : List Char := (toks.map rawOfToken).flatten

/-- The characters `when ` that open a conditional marker. -/
def whenMark : List Char := "when ".data

/-- The `env.` scope marker. -/
def envMark : List Char := "env.".data

/-- The `fn.` scope marker. -/
def fnMark : List Char := "fn.".data

/-- The characters of the `else` marker content. -/
def elseChars : List Char := "else".data

/-- The characters of the `end` marker content. -/
def endChars : List Char := "end".data

/-- `leadsWith p cs` holds when `p` is an initial run of `cs`. -/
def leadsWith : List Char → List Char → Bool
  | [], _ => true
  | _ :: _, [] => false
  | p :: ps, c :: cs => p = c && leadsWith ps cs

/-- Marker span reconstruction: the raw characters of a marker whose content
between the delimiters is `content`. -/
def mkRaw (content : List Char) : List Char := '$' :: obr :: (content ++ [cbr])

/-- Scan up to the closing marker brace: returns the marker content and the
characters after the brace, or `none` when the marker is unterminated. -/
def splitMarker : List Char → Option (List Char × List Char)
  | [] => none
  | c :: rest =>
      if c = cbr then some ([], rest)
      else
        match splitMarker rest with
        | none => none
        | some (content, after) => some (c :: content, after)

theorem splitMarker_eq : ∀ (cs content after : List Char),
    splitMarker cs = some (content, after) → cs = content ++ cbr :: after := by
  intro cs
  induction cs with
  | nil => intro content after h; simp [splitMarker] at h
  | cons c rest ih =>
      intro content after h
      by_cases hc : c = cbr
      · simp [splitMarker, hc] at h
        obtain ⟨h1, h2⟩ := h
        simp [← h1, ← h2, hc]
      · simp [splitMarker, hc] at h
        cases hs : splitMarker rest with
        | none => rw [hs] at h; simp at h
        | some p =>
            rw [hs] at h
            obtain ⟨content', after'⟩ := p
            simp at h
            obtain ⟨h1, h2⟩ := h
            have := ih content' after' hs
            simp [← h1, ← h2, this]

/-- Split a character list on a separator character; always returns at least
one (possibly empty) chunk. -/
def splitOnCh (sep : Char) : List Char → List (List Char)
  | [] => [[]]
  | c :: rest =>
      if c = sep then [] :: splitOnCh sep rest
      else
        match splitOnCh sep rest with
        | [] => [[c]]
        | p :: ps => (c :: p) :: ps

/-- Rejoin chunks with a separator character. -/
def joinChunks (sep : Char) : List (List Char) → List Char
  | [] => []
  | [p] => p
  | p :: ps => p ++ sep :: joinChunks sep ps

/-- Strip one trailing quote character. -/
def unquoteTail (v : List Char) : Option (List Char) :=
  match v.reverse with
  | [] => none
  | q :: rest => if q = quoteCh then some rest.reverse else none

/-- Strip one trailing closing parenthesis. -/
def unparenTail (v : List Char) : Option (List Char) :=
  match v.reverse with
  | [] => none
  | c :: rest => if c = ')' then some rest.reverse else none

/-- Remove leading and trailing spaces. -/
def trimSpaces (a : List Char) : List Char :=
  ((a.dropWhile (fun c => c = ' ')).reverse.dropWhile (fun c => c = ' ')).reverse

/-- Modelled from the spec: a conditional condition is an equality or
inequality comparison of the current environment against a quoted name,
e.g. `when environment == 'prod'` (§4.2 and the fixtures). -/
def parseCond (cs : List Char) : Option Cond :=
  let eqMark := "environment == ".data ++ [quoteCh]
  let neMark := "environment != ".data ++ [quoteCh]
  if leadsWith eqMark cs then
    match unquoteTail (cs.drop eqMark.length) with
    | some v => some (.envEq (String.mk v))
    | none => none
  else if leadsWith neMark cs then
    match unquoteTail (cs.drop neMark.length) with
    | some v => some (.envNe (String.mk v))
    | none => none
  else none

/-- A function-call argument: a quoted token is a string literal, any other
token is carried verbatim as literal text (§4.1, fixture syntax
`fn.date_trunc('month', created_at)`). -/
def parseArg (a : List Char) : Expression :=
  match a with
  | [] => .literal (.str "")
  | q :: rest =>
      if q = quoteCh then
        match unquoteTail rest with
        | some inner => .literal (.str (String.mk inner))
        | none => .literal (.str (String.mk a))
      else .literal (.str (String.mk a))

/-- The characters of a `fn.` marker after the scope prefix. -/
def fnRest (content : List Char) : List Char := content.drop fnMark.length

/-- The function name of a `fn.` marker: the characters before the opening
parenthesis. -/
def fnName (content : List Char) : List Char :=
  (fnRest content).takeWhile (fun c => c ≠ '(')

/-- The characters of a `fn.` marker from the opening parenthesis on. -/
def fnAfter (content : List Char) : List Char :=
  (fnRest content).drop (fnName content).length

/-- Modelled from the spec: parse a `fn.`-scoped marker content into a
`FunctionCall` expression (§4.1). -/
def parseFn (pos : Nat) (content : List Char) : Except ParseError Token :=
  if (fnName content).isEmpty then .error ⟨pos, String.mk content, .emptyPropertyChain⟩
  else
    match fnAfter content with
    | [] => .ok (.expr (mkRaw content) (.functionCall (String.mk (fnName content)) []))
    | _ :: inner =>
        match unparenTail inner with
        | none => .error ⟨pos, String.mk content, .badFunctionSyntax⟩
        | some argsChars =>
            .ok (.expr (mkRaw content) (.functionCall (String.mk (fnName content))
              ((splitOnCh ',' argsChars).map (fun a => parseArg (trimSpaces a)))))

/-- Modelled from the spec: the closed set of resource-kind tags exhibited by
the fixtures' front matter and marker expressions (§9). -/
def resourceKinds : List String :=
  ["postgres_table", "postgres_view", "sql_view", "kolumn_data_object",
   "kafka_topic", "bigquery_table", "s3_bucket", "s3_object"]

/-- Modelled from the spec: classification of one marker's content (§4.1).
A dot-free segment is a variable reference; `input.`/`var.` scopes are
variable references; `env.` is an environment reference; a leading provider
segment before a known resource-kind token signals a cross-provider
reference; otherwise dot notation is a resource reference with an optional
left-associative property chain.  An empty chain segment is a `ParseError`. -/
def classifyContent (pos : Nat) (content : List Char) : Except ParseError Token :=
  if content = elseChars then .ok (.elseTok (mkRaw content))
  else if content = endChars then .ok (.endTok (mkRaw content))
  else if leadsWith whenMark content then
    match parseCond (content.drop whenMark.length) with
    | none => .error ⟨pos, String.mk content, .unknownConditionalKeyword⟩
    | some c => .ok (.whenTok (mkRaw content) c)
  else if leadsWith envMark content then
    if (content.drop envMark.length).isEmpty then
      .error ⟨pos, String.mk content, .emptyPropertyChain⟩
    else .ok (.expr (mkRaw content) (.envRef (String.mk (content.drop envMark.length))))
  else if leadsWith fnMark content then parseFn pos content
  else
    if (splitOnCh '.' content).any (fun p => p.isEmpty) then
      .error ⟨pos, String.mk content, .emptyPropertyChain⟩
    else
      match splitOnCh '.' content with
      | [] => .error ⟨pos, String.mk content, .emptyPropertyChain⟩
      | [a] => .ok (.expr (mkRaw content) (.variableRef "" (String.mk a)))
      | [a, b] =>
          if String.mk a = "input" ∨ String.mk a = "var" then
            .ok (.expr (mkRaw content) (.variableRef (String.mk a) (String.mk b)))
          else .ok (.expr (mkRaw content) (.resourceRef (String.mk a) (String.mk b) none))
      | a :: b :: c :: rest =>
          if String.mk b ∈ resourceKinds then
            .ok (.expr (mkRaw content) (.crossProviderRef (String.mk a) (String.mk b) (String.mk c)
              (if rest.isEmpty then none else some (String.mk (joinChunks '.' rest)))))
          else
            .ok (.expr (mkRaw content) (.resourceRef (String.mk a) (String.mk b)
              (some (String.mk (joinChunks '.' (c :: rest))))))

/-- Modelled from the spec: the single scan that turns source text into a
token stream, locating every top-level marker span and leaving everything
else as literal characters; an unterminated marker is a `ParseError` at its
byte offset (§4.1).  The first `Nat` is the current byte offset, the second a
step budget: every recursive step consumes at least one character, so the
wrapper `tokenize` supplies a budget that can never run out. -/
def tokenizeF (pos : Nat) : Nat → List Char → Except ParseError (List Token)
  | _, [] => .ok []
  | 0, c :: rest => .error ⟨pos, String.mk (c :: rest), .depthLimitExceeded⟩
  | fuel + 1, c :: rest =>
      if c = '$' then
        match rest with
        | c2 :: rest2 =>
            if c2 = obr then
              match splitMarker rest2 with
              | none => .error ⟨pos, String.mk (c :: rest), .unterminatedMarker⟩
              | some (content, after) =>
                  match classifyContent (pos + 2) content with
                  | .error e => .error e
                  | .ok tok =>
                      match tokenizeF (pos + content.length + 3) fuel after with
                      | .error e => .error e
                      | .ok toks => .ok (tok :: toks)
            else
              match tokenizeF (pos + 1) fuel (c2 :: rest2) with
              | .error e => .error e
              | .ok toks => .ok (.lit [c] :: toks)
        | [] => .ok [.lit [c]]
      else
        match tokenizeF (pos + 1) fuel rest with
        | .error e => .error e
        | .ok toks => .ok (.lit [c] :: toks)

/-- The marker scan at its always-sufficient step budget. -/
def tokenize (pos : Nat) (cs : List Char) : Except ParseError (List Token) :=
  tokenizeF pos cs.length cs

/-- One output segment of the parser: a literal text span or a marker span
with its parsed expression; each segment keeps the raw characters of its
source span (§4.1: segments cover the input with no gaps or overlaps). -/
inductive Segment
  | lit (raw : List Char)
  | expr (raw : List Char) (e : Expression)

/-- Raw source span of a segment. -/
def rawOfSeg : Segment → List Char
  | .lit r => r
  | .expr r _ => r

/-- Concatenated raw source of a segment list. -/
def rawsOf (segs : List Segment) : List Char := (segs.map rawOfSeg).flatten

/-- Expression denoted by a segment when it occurs inside a conditional
branch: literal text denotes itself. -/
def segExpr : Segment → Expression
  | .lit r => .literal (.str (String.mk r))
  | .expr _ e => e

/-- Modelled from the spec: the grouping pass that matches the
`when`/`else`/`end` markers into single `Conditional` expressions, tracking
nesting through a depth budget (§4.1).  Returns the parsed segments together
with the unconsumed tokens, which begin at the first `else`/`end` marker
belonging to an enclosing conditional. -/
def parseSeq : Nat → List Token → Except ParseError (List Segment × List Token)
  | 0, _ => .error ⟨0, "", .depthLimitExceeded⟩
  | _ + 1, [] => .ok ([], [])
  | _ + 1, .elseTok r :: rest => .ok ([], .elseTok r :: rest)
  | _ + 1, .endTok r :: rest => .ok ([], .endTok r :: rest)
  | fuel + 1, .lit r :: rest =>
      match parseSeq fuel rest with
      | .error e => .error e
      | .ok (segs, rem) => .ok (.lit r :: segs, rem)
  | fuel + 1, .expr r e :: rest =>
      match parseSeq fuel rest with
      | .error err => .error err
      | .ok (segs, rem) => .ok (.expr r e :: segs, rem)
  | fuel + 1, .whenTok r c :: rest =>
      match parseSeq fuel rest with
      | .error e => .error e
      | .ok (thenSegs, rem1) =>
          match rem1 with
          | .elseTok r2 :: rest2 =>
              match parseSeq fuel rest2 with
              | .error e => .error e
              | .ok (elseSegs, rem2) =>
                  match rem2 with
                  | .endTok r3 :: rest3 =>
                      match parseSeq fuel rest3 with
                      | .error e => .error e
                      | .ok (segs, rem) =>
                          .ok (.expr (r ++ rawsOf thenSegs ++ r2 ++ rawsOf elseSegs ++ r3)
                            (.conditional c (.concat (thenSegs.map segExpr))
                              (.concat (elseSegs.map segExpr))) :: segs, rem)
                  | _ => .error ⟨0, String.mk r, .mismatchedConditional⟩
          | .endTok r3 :: rest3 =>
              match parseSeq fuel rest3 with
              | .error e => .error e
              | .ok (segs, rem) =>
                  .ok (.expr (r ++ rawsOf thenSegs ++ r3)
                    (.conditional c (.concat (thenSegs.map segExpr)) (.concat [])) :: segs, rem)
          | _ => .error ⟨0, String.mk r, .mismatchedConditional⟩

/-- Modelled from the spec: the full parser — scan for markers, then group
conditional markers — producing a segment sequence that covers the whole
input, or a single `ParseError` (§4.1). -/
def parseCh (cs : List Char) : Except ParseError (List Segment) :=
  match tokenize 0 cs with
  | .error e => .error e
  | .ok toks =>
      match parseSeq (toks.length + 1) toks with
      | .error e => .error e
      | .ok (segs, []) => .ok segs
      | .ok (_, t :: _) => .error ⟨0, String.mk (rawOfToken t), .mismatchedConditional⟩

/-- Whether the text contains a marker opening anywhere: a dollar sign
immediately followed by the opening brace. -/
def hasMarker : List Char → Bool
  | c :: c2 :: rest => (c = '$' && c2 = obr) || hasMarker (c2 :: rest)
  | _ => false

/-- Modelled from the spec: a render-time error record carrying the
unresolved expression text verbatim together with the resolution error (§7). -/
structure RenderError where
  raw : List Char
  err : ResolutionError

/-- Modelled from the spec: the failure side of rendering — a parse failure,
or the batch of all resolution errors encountered in the file (§4.4). -/
inductive RenderFailure
  | parseFailed (e : ParseError)
  | resolutionFailed (errs : List RenderError)

/-- Resolve one segment: literal spans are preserved byte-for-byte, marker
spans are replaced by the resolved value's canonical string form (§4.4). -/
def resolveSeg (ctx : ResolutionContext) : Segment → Except RenderError (List Char)
  | .lit r => .ok r
  | .expr raw e =>
      match resolve ctx e with
      | .ok v => .ok (canon v).data
      | .error err => .error ⟨raw, err⟩

/-- All resolution errors of a segment list, in source order (§4.4:
batch-report, not fail-fast-on-first). -/
def collectErrors (ctx : ResolutionContext) (segs : List Segment) : List RenderError :=
  segs.filterMap (fun s =>
    match resolveSeg ctx s with
    | .ok _ => none
    | .error e => some e)

/-- The substituted output text of a segment list, assuming every segment
resolved. -/
def renderPieces (ctx : ResolutionContext) (segs : List Segment) : List Char :=
  (segs.map (fun s =>
    match resolveSeg ctx s with
    | .ok piece => piece
    | .error _ => [])).flatten

/-- Modelled from the spec: `render(Template, ResolutionContext) ->
RenderedDocument | aggregate of ResolutionError` — if any expression fails,
rendering of the file aborts with no partial output and returns the full
set of errors encountered (§4.4). -/
def renderCh (ctx : ResolutionContext) (cs : List Char) : Except RenderFailure (List Char) :=
  match parseCh cs with
  | .error e => .error (.parseFailed e)
  | .ok segs =>
      match collectErrors ctx segs with
      | [] => .ok (renderPieces ctx segs)
      | e :: es => .error (.resolutionFailed (e :: es))

/-- String-level wrapper of `renderCh`. -/
def render (ctx : ResolutionContext) (s : String) : Except RenderFailure String :=
  match renderCh ctx s.data with
  | .error f => .error f
  | .ok out => .ok (String.mk out)

/-- Modelled from the spec: rendering a batch of files; each file is rendered
independently against the shared context, so failures in one file never
affect sibling files (§7, isolation). -/
def renderBatch (ctx : ResolutionContext) (files : List String) :
    List (Except RenderFailure String) :=
  files.map (fun f => render ctx f)

/-- Modelled from the spec: a fresh resolution context built per render job;
the variable bindings include the template's front-matter metadata keys
(fixtures interpolate the front-matter key `python_version` through the
marker `${python_version}`). -/
def mkContext (environment defaultProvider : String)
    (inputs : List (String × Expression)) (frontMatter : List (String × Value))
    (envVars : List (String × Value)) (catalog : Catalog) : ResolutionContext :=
  { environment := environment
    defaultProvider := defaultProvider
    vars := inputs ++ frontMatter.map (fun p => (p.1, .literal p.2))
    envVars := envVars
    catalog := catalog }

/-- A task-identifier character: letters, digits and underscore. -/
def isIdentChar (c : Char) : Bool := c.isAlphanum || c = '_'

/-- A task-identifier token: nonempty and made of identifier characters. -/
def isIdentTok (w : List Char) : Bool := !w.isEmpty && w.all isIdentChar

theorem dropWhileLenLt (c : Char) (cs : List Char) (p : Char → Bool) (h : p c = true) :
    ((c :: cs).dropWhile p).length < (c :: cs).length := by
  rw [List.dropWhile_cons, if_pos h]
  have := (List.dropWhile_sublist (l := cs) p).length_le
  simp
  omega

/-- A non-space character, the word-splitting predicate of the line scan. -/
def notSpace (c : Char) : Bool := !(c == ' ')

/-- Split a line into space-separated words, dropping empty runs. -/
def wordsCh : List Char → List (List Char)
  | [] => []
  | c :: cs =>
      if hc : c = ' ' then wordsCh cs
      else ((c :: cs).takeWhile notSpace) :: wordsCh ((c :: cs).dropWhile notSpace)
termination_by cs => cs.length
decreasing_by
  · simp
  · exact dropWhileLenLt _ _ _ (by simp [notSpace, hc])

/-- Modelled from the spec: recognition of an explicit sequencing chain
`A >> B >> C` in one rendered line — an alternation of task identifiers and
the sequencing operator (§4.5(c)). -/
def parseChain : List (List Char) → Option (List (List Char))
  | [] => none
  | [w] => if isIdentTok w then some [w] else none
  | w :: sep :: rest =>
      if isIdentTok w ∧ sep = ['>', '>'] then (parseChain rest).map (fun ts => w :: ts)
      else none

/-- Modelled from the spec: the edges recovered from one rendered line — each
adjacent pair of a recognized sequencing chain, in order; lines that match no
known pattern contribute nothing (§4.5). -/
def lineEdges (line : List Char) : List (String × String) :=
  match parseChain (wordsCh line) with
  | some ts => (ts.zip ts.tail).map (fun p => (String.mk p.1, String.mk p.2))
  | none => []

/-- Modelled from the spec: the explicit dependency edges extracted from a
rendered document, line by line (§4.5). -/
def extractEdges (cs : List Char) : List (String × String) :=
  ((splitOnCh '\n' cs).map lineEdges).flatten

/-- The sequencing-operator separator of a chain line. -/
def chainSep : List Char := [' ', '>', '>', ' ']

/-- The rendered text of a sequencing chain over the given task identifiers,
as it appears in the fixtures (`extract_task >> transform_task >> ...`). -/
def chainLine (ts : List String) : List Char :=
  match ts with
  | [] => []
  | [t] => t.data
  | t :: rest => t.data ++ chainSep ++ chainLine rest

/-- Modelled from the spec: `CycleError`, reporting the minimal offending
cycle as a sequence of node identifiers (§4.6, §7). -/
structure CycleError where
  cycle : List String
deriving Repr, DecidableEq

/-- Modelled from the spec: the fatal failures of the graph-build phase — a
dangling resource reference or a detected cycle (§4.6). -/
inductive GraphError
  | dangling (node : String)
  | cycleFound (err : CycleError)
deriving Repr, DecidableEq

/-- Successors of a node in an edge list. -/
def succs (edges : List (String × String)) (n : String) : List String :=
  (edges.filter (fun e => e.1 = n)).map (fun e => e.2)

mutual

/-- Depth-first search for a cycle reachable from `n`; `path` holds the nodes
of the current descent, most recent first.  Hitting a node already on the
path closes the offending cycle, reported as that node followed by the nodes
visited since it. -/
def dfsFrom (edges : List (String × String)) : Nat → List String → String →
    Option (List String)
  | fuel, path, n =>
      if n ∈ path then some (n :: path.takeWhile (fun m => m ≠ n))
      else
        match fuel with
        | 0 => none
        | fuel' + 1 => dfsAll edges fuel' (n :: path) (succs edges n)
termination_by fuel path n => (fuel, 0)

/-- Try a depth-first search from each node of a list in turn. -/
def dfsAll (edges : List (String × String)) : Nat → List String → List String →
    Option (List String)
  | _, _, [] => none
  | fuel, path, m :: ms =>
      match dfsFrom edges fuel path m with
      | some cyc => some cyc
      | none => dfsAll edges fuel path ms
termination_by fuel path ms => (fuel, ms.length + 1)

end

/-- Endpoint nodes of an edge list, in order of appearance. -/
def nodesOf (edges : List (String × String)) : List String :=
  (edges.map (fun e => [e.1, e.2])).flatten

/-- Modelled from the spec: standard cycle detection over the merged edge
set (§4.6). -/
def detectCycle (edges : List (String × String)) : Option (List String) :=
  dfsAll edges (2 * edges.length + 2) [] (nodesOf edges)

/-- Modelled from the spec: merging extracted task edges with declared
resource edges into one edge set (§3, §4.6). -/
def mergeEdges (extracted declared : List (String × String)) : List (String × String) :=
  extracted ++ declared

/-- Modelled from the spec: the graph-build phase on an already-merged edge
set — validate that every referenced node resolves against the catalog, then
run cycle detection; a cycle is fatal for the whole phase (§4.6). -/
def buildGraphMerged (known : String → Bool) (merged : List (String × String)) :
    Except GraphError (List (String × String)) :=
  match (nodesOf merged).find? (fun n => !known n) with
  | some n => .error (.dangling n)
  | none =>
      match detectCycle merged with
      | some cyc => .error (.cycleFound ⟨cyc⟩)
      | none => .ok merged

/-- Modelled from the spec: the dependency-graph builder — merge first, then
validate and cycle-check the merged edge set (§4.6). -/
def buildGraph (known : String → Bool) (extracted declared : List (String × String)) :
    Except GraphError (List (String × String)) :=
  buildGraphMerged known (mergeEdges extracted declared)

/-! ## Sample contexts used by witnesses -/

/-- A production-environment context with only the production tables defined. -/
def prodCtx : ResolutionContext :=
  mkContext "prod" "postgres" [] [] [("PROD_DATABASE_URL", .str "postgresql-prod")] []

/-- A context whose catalog has a postgres provider but no bigquery provider. -/
def noBigqueryCtx : ResolutionContext :=
  mkContext "dev" "postgres" [] [] []
    [⟨"postgres", "postgres_table", "raw_customers", [("schema", .str "public")]⟩]

/-- A development-environment context where only the development URL is
defined (the spec's example 2: `PROD_URL` need not be defined). -/
def devCtx : ResolutionContext :=
  mkContext "dev" "postgres" [] [] [("DEV_URL", .str "localhost")] []

/-- A context with the self-referential binding `x = x` in its variable table. -/
def selfRefCtx : ResolutionContext :=
  mkContext "dev" "postgres" [("x", .variableRef "" "x")] [] [] []

/-- A context with the mutually recursive bindings `x = y` and `y = x`. -/
def mutualRefCtx : ResolutionContext :=
  mkContext "dev" "postgres"
    [("x", .variableRef "" "y"), ("y", .variableRef "" "x")] [] [] []

/-- A template whose two markers both fail to resolve against `prodCtx`. -/
def tplBad : List Char :=
  ['$', obr] ++ "input.missing".data ++ [cbr, ' ', '$', obr] ++ "env.NOPE".data ++ [cbr]

/-- A template with an unterminated marker, so it fails to parse. -/
def tplUnt : List Char := ['$', obr] ++ "input.x".data

/-- The parsed segments of `tplBad`. -/
def segsBad : List Segment :=
  [.expr (['$', obr] ++ "input.missing".data ++ [cbr]) (.variableRef "input" "missing"),
   .lit [' '],
   .expr (['$', obr] ++ "env.NOPE".data ++ [cbr]) (.envRef "NOPE")]

/-- The two resolution errors of `tplBad` against `prodCtx`, in source order. -/
def errsBad : List RenderError :=
  [⟨['$', obr] ++ "input.missing".data ++ [cbr], .unknownVariable "missing"⟩,
   ⟨['$', obr] ++ "env.NOPE".data ++ [cbr], .missingEnvVar "NOPE"⟩]

/-! ## General lemmas -/

theorem stringMk_data (s : String) : String.mk s.data = s := rfl

theorem notSpace_of_ne (c : Char) (hc : c ≠ ' ') : notSpace c = true := by
  simp [notSpace, hc]

theorem takeWhile_nospace (w r : List Char) (hsp : ∀ c ∈ w, c ≠ ' ') :
    (w ++ ' ' :: r).takeWhile notSpace = w := by
  induction w with
  | nil =>
      rw [List.nil_append, List.takeWhile_cons]
      simp [notSpace]
  | cons c w ih =>
      rw [List.cons_append, List.takeWhile_cons, if_pos (notSpace_of_ne c (hsp c (by simp)))]
      rw [ih (fun d hd => hsp d (by simp [hd]))]

theorem dropWhile_nospace (w r : List Char) (hsp : ∀ c ∈ w, c ≠ ' ') :
    (w ++ ' ' :: r).dropWhile notSpace = ' ' :: r := by
  induction w with
  | nil =>
      rw [List.nil_append, List.dropWhile_cons]
      simp [notSpace]
  | cons c w ih =>
      rw [List.cons_append, List.dropWhile_cons]
      simp only [notSpace_of_ne c (hsp c (by simp)), if_true]
      exact ih (fun d hd => hsp d (by simp [hd]))

theorem takeWhile_all_nospace (w : List Char) (hsp : ∀ c ∈ w, c ≠ ' ') :
    w.takeWhile notSpace = w := by
  induction w with
  | nil => simp
  | cons c w ih =>
      rw [List.takeWhile_cons, if_pos (notSpace_of_ne c (hsp c (by simp)))]
      rw [ih (fun d hd => hsp d (by simp [hd]))]

theorem dropWhile_all_nospace (w : List Char) (hsp : ∀ c ∈ w, c ≠ ' ') :
    w.dropWhile notSpace = [] := by
  induction w with
  | nil => simp
  | cons c w ih =>
      rw [List.dropWhile_cons]
      simp only [notSpace_of_ne c (hsp c (by simp)), if_true]
      exact ih (fun d hd => hsp d (by simp [hd]))

theorem wordsCh_nil : wordsCh [] = [] := by simp [wordsCh]

theorem wordsCh_space (r : List Char) : wordsCh (' ' :: r) = wordsCh r := by
  rw [wordsCh]
  simp

theorem wordsCh_word_space (w r : List Char) (hw : w ≠ []) (hsp : ∀ c ∈ w, c ≠ ' ') :
    wordsCh (w ++ ' ' :: r) = w :: wordsCh r := by
  match w, hw with
  | c :: w', _ =>
      have hc : c ≠ ' ' := hsp c (by simp)
      rw [List.cons_append, wordsCh, dif_neg hc]
      rw [show c :: (w' ++ ' ' :: r) = (c :: w') ++ ' ' :: r from rfl]
      rw [takeWhile_nospace _ _ hsp, dropWhile_nospace _ _ hsp, wordsCh_space]

theorem wordsCh_single (w : List Char) (hw : w ≠ []) (hsp : ∀ c ∈ w, c ≠ ' ') :
    wordsCh w = [w] := by
  match w, hw with
  | c :: w', _ =>
      have hc : c ≠ ' ' := hsp c (by simp)
      rw [wordsCh, dif_neg hc]
      rw [takeWhile_all_nospace _ hsp, dropWhile_all_nospace _ hsp, wordsCh_nil]

theorem isIdentTok_nonempty (w : List Char) (h : isIdentTok w = true) : w ≠ [] := by
  intro hnil
  subst hnil
  simp [isIdentTok] at h

theorem isIdentTok_nospace (w : List Char) (h : isIdentTok w = true) :
    ∀ c ∈ w, c ≠ ' ' := by
  intro c hc heq
  subst heq
  simp [isIdentTok, List.all_eq_true] at h
  have := h.2 ' ' hc
  simp [isIdentChar] at this

theorem rawsTok_nil : rawsTok [] = [] := rfl

theorem rawsTok_cons (t : Token) (ts : List Token) :
    rawsTok (t :: ts) = rawOfToken t ++ rawsTok ts := rfl

theorem rawsOf_nil : rawsOf [] = [] := rfl

theorem rawsOf_cons (s : Segment) (ss : List Segment) :
    rawsOf (s :: ss) = rawOfSeg s ++ rawsOf ss := rfl

theorem parseFn_raw (pos : Nat) (content : List Char) (tok : Token)
    (h : parseFn pos content = .ok tok) : rawOfToken tok = mkRaw content := by
  unfold parseFn at h
  split at h
  · exact absurd h (by simp)
  · split at h
    · injection h with h2
      subst h2
      rfl
    · split at h
      · exact absurd h (by simp)
      · injection h with h2
        subst h2
        rfl

theorem classify_raw (pos : Nat) (content : List Char) (tok : Token)
    (h : classifyContent pos content = .ok tok) : rawOfToken tok = mkRaw content := by
  unfold classifyContent at h
  split at h
  · injection h with h2; subst h2; rfl
  · split at h
    · injection h with h2; subst h2; rfl
    · split at h
      · split at h
        · exact absurd h (by simp)
        · injection h with h2; subst h2; rfl
      · split at h
        · split at h
          · exact absurd h (by simp)
          · injection h with h2; subst h2; rfl
        · split at h
          · exact parseFn_raw pos content tok h
          · split at h
            · exact absurd h (by simp)
            · split at h
              · exact absurd h (by simp)
              · injection h with h2; subst h2; rfl
              · split at h
                · injection h with h2; subst h2; rfl
                · injection h with h2; subst h2; rfl
              · split at h
                · injection h with h2; subst h2; rfl
                · injection h with h2; subst h2; rfl

theorem tokenizeF_cov : ∀ (fuel pos : Nat) (cs : List Char) (toks : List Token),
    tokenizeF pos fuel cs = .ok toks → rawsTok toks = cs := by
  intro fuel
  induction fuel with
  | zero =>
      intro pos cs toks h
      cases cs with
      | nil =>
          simp [tokenizeF] at h
          subst h
          rfl
      | cons c rest => simp [tokenizeF] at h
  | succ n ih =>
      intro pos cs toks h
      cases cs with
      | nil =>
          simp [tokenizeF] at h
          subst h
          rfl
      | cons c rest =>
          by_cases hc : c = '$'
          · subst hc
            cases rest with
            | nil =>
                simp [tokenizeF] at h
                subst h
                rfl
            | cons c2 rest2 =>
                by_cases hob : c2 = obr
                · subst hob
                  cases hsm : splitMarker rest2 with
                  | none => simp [tokenizeF, hsm] at h
                  | some p =>
                      obtain ⟨content, after⟩ := p
                      cases hcl : classifyContent (pos + 2) content with
                      | error e => simp [tokenizeF, hsm, hcl] at h
                      | ok tok =>
                          cases htok : tokenizeF (pos + content.length + 3) n after with
                          | error e => simp [tokenizeF, hsm, hcl, htok] at h
                          | ok toks0 =>
                              simp [tokenizeF, hsm, hcl, htok] at h
                              subst h
                              rw [rawsTok_cons, classify_raw _ _ _ hcl, ih _ _ _ htok]
                              have hre := splitMarker_eq _ _ _ hsm
                              subst hre
                              simp [mkRaw]
                · cases htok : tokenizeF (pos + 1) n (c2 :: rest2) with
                  | error e => simp [tokenizeF, hob, htok] at h
                  | ok toks0 =>
                      simp [tokenizeF, hob, htok] at h
                      subst h
                      rw [rawsTok_cons, ih _ _ _ htok]
                      rfl
          · cases htok : tokenizeF (pos + 1) n rest with
            | error e => simp [tokenizeF, hc, htok] at h
            | ok toks0 =>
                simp [tokenizeF, hc, htok] at h
                subst h
                rw [rawsTok_cons, ih _ _ _ htok]
                rfl

theorem tokenize_cov (pos : Nat) (cs : List Char) :
    ∀ toks, tokenize pos cs = .ok toks → rawsTok toks = cs :=
  fun toks h => tokenizeF_cov cs.length pos cs toks h

theorem parseSeq_cov : ∀ (fuel : Nat) (toks : List Token) (segs : List Segment)
    (rem : List Token), parseSeq fuel toks = .ok (segs, rem) →
    rawsOf segs ++ rawsTok rem = rawsTok toks := by
  intro fuel
  induction fuel with
  | zero =>
      intro toks segs rem h
      simp [parseSeq] at h
  | succ n ih =>
      intro toks segs rem h
      cases toks with
      | nil =>
          simp [parseSeq] at h
          obtain ⟨h1, h2⟩ := h
          subst h1
          subst h2
          rfl
      | cons t rest =>
          cases t with
          | lit r =>
              cases hps : parseSeq n rest with
              | error e => simp [parseSeq, hps] at h
              | ok p =>
                  obtain ⟨segs0, rem0⟩ := p
                  simp [parseSeq, hps] at h
                  obtain ⟨h1, h2⟩ := h
                  subst h1
                  subst h2
                  simp only [rawsOf_cons, rawsTok_cons, rawOfSeg, rawOfToken,
                    List.append_assoc]
                  rw [ih _ _ _ hps]
          | expr r e =>
              cases hps : parseSeq n rest with
              | error err => simp [parseSeq, hps] at h
              | ok p =>
                  obtain ⟨segs0, rem0⟩ := p
                  simp [parseSeq, hps] at h
                  obtain ⟨h1, h2⟩ := h
                  subst h1
                  subst h2
                  simp only [rawsOf_cons, rawsTok_cons, rawOfSeg, rawOfToken,
                    List.append_assoc]
                  rw [ih _ _ _ hps]
          | elseTok r =>
              simp [parseSeq] at h
              obtain ⟨h1, h2⟩ := h
              subst h1
              subst h2
              rfl
          | endTok r =>
              simp [parseSeq] at h
              obtain ⟨h1, h2⟩ := h
              subst h1
              subst h2
              rfl
          | whenTok r c =>
              cases hps1 : parseSeq n rest with
              | error e => simp [parseSeq, hps1] at h
              | ok p1 =>
                  obtain ⟨thenSegs, rem1⟩ := p1
                  cases rem1 with
                  | nil => simp [parseSeq, hps1] at h
                  | cons t2 rest2 =>
                      cases t2 with
                      | lit r2 => simp [parseSeq, hps1] at h
                      | expr r2 e2 => simp [parseSeq, hps1] at h
                      | whenTok r2 c2 => simp [parseSeq, hps1] at h
                      | elseTok r2 =>
                          cases hps2 : parseSeq n rest2 with
                          | error e => simp [parseSeq, hps1, hps2] at h
                          | ok p2 =>
                              obtain ⟨elseSegs, rem2⟩ := p2
                              cases rem2 with
                              | nil => simp [parseSeq, hps1, hps2] at h
                              | cons t3 rest3 =>
                                  cases t3 with
                                  | lit r3 => simp [parseSeq, hps1, hps2] at h
                                  | expr r3 e3 => simp [parseSeq, hps1, hps2] at h
                                  | whenTok r3 c3 => simp [parseSeq, hps1, hps2] at h
                                  | elseTok r3 => simp [parseSeq, hps1, hps2] at h
                                  | endTok r3 =>
                                      cases hps3 : parseSeq n rest3 with
                                      | error e => simp [parseSeq, hps1, hps2, hps3] at h
                                      | ok p3 =>
                                          obtain ⟨segs3, rem3⟩ := p3
                                          simp [parseSeq, hps1, hps2, hps3] at h
                                          obtain ⟨h1, h2⟩ := h
                                          subst h1
                                          subst h2
                                          simp only [rawsOf_cons, rawsTok_cons, rawOfSeg,
                                            rawOfToken, List.append_assoc]
                                          rw [← ih _ _ _ hps1]
                                          simp only [rawsTok_cons, rawOfToken,
                                            List.append_assoc]
                                          rw [← ih _ _ _ hps2]
                                          simp only [rawsTok_cons, rawOfToken,
                                            List.append_assoc]
                                          rw [← ih _ _ _ hps3]
                      | endTok r2 =>
                          cases hps3 : parseSeq n rest2 with
                          | error e => simp [parseSeq, hps1, hps3] at h
                          | ok p3 =>
                              obtain ⟨segs3, rem3⟩ := p3
                              simp [parseSeq, hps1, hps3] at h
                              obtain ⟨h1, h2⟩ := h
                              subst h1
                              subst h2
                              simp only [rawsOf_cons, rawsTok_cons, rawOfSeg, rawOfToken,
                                List.append_assoc]
                              rw [← ih _ _ _ hps1]
                              simp only [rawsTok_cons, rawOfToken, List.append_assoc]
                              rw [← ih _ _ _ hps3]

theorem parseCh_cov (cs : List Char) (segs : List Segment)
    (h : parseCh cs = .ok segs) : rawsOf segs = cs := by
  unfold parseCh at h
  cases htk : tokenize 0 cs with
  | error e => rw [htk] at h; simp at h
  | ok toks =>
      rw [htk] at h
      dsimp only at h
      cases hps : parseSeq (toks.length + 1) toks with
      | error e => rw [hps] at h; simp at h
      | ok p =>
          obtain ⟨segs0, rem⟩ := p
          rw [hps] at h
          cases rem with
          | nil =>
              simp at h
              subst h
              have h1 := parseSeq_cov _ _ _ _ hps
              have h2 := tokenize_cov _ _ _ htk
              rw [← h2, ← h1]
              simp [rawsTok_nil]
          | cons t ts => simp at h

theorem parseChain_chainLine (ts : List String) (hne : ts ≠ [])
    (h : ∀ t ∈ ts, isIdentTok t.data = true) :
    parseChain (wordsCh (chainLine ts)) = some (ts.map String.data) := by
  induction ts with
  | nil => exact absurd rfl hne
  | cons t rest ih =>
      cases rest with
      | nil =>
          have h1 := h t (by simp)
          rw [show chainLine [t] = t.data from rfl]
          rw [wordsCh_single t.data (isIdentTok_nonempty _ h1) (isIdentTok_nospace _ h1)]
          simp [parseChain, h1]
      | cons t2 ts2 =>
          have h1 := h t (by simp)
          have hrest : ∀ u ∈ t2 :: ts2, isIdentTok u.data = true :=
            fun u hu => h u (by simp [hu])
          have hstep : chainLine (t :: t2 :: ts2) =
              t.data ++ ' ' :: (['>', '>'] ++ ' ' :: chainLine (t2 :: ts2)) := by
            simp [chainLine, chainSep]
          rw [hstep]
          rw [wordsCh_word_space _ _ (isIdentTok_nonempty _ h1) (isIdentTok_nospace _ h1)]
          rw [wordsCh_word_space ['>', '>'] _ (by simp) (by decide)]
          simp only [parseChain]
          rw [ih (by simp) hrest]
          simp [h1]

theorem zip_map_mk (ts : List String) :
    (((ts.map String.data).zip (ts.map String.data).tail).map
      (fun p => (String.mk p.1, String.mk p.2))) = ts.zip ts.tail := by
  induction ts with
  | nil => simp
  | cons t rest ih =>
      cases rest with
      | nil => simp
      | cons t2 ts2 =>
          simp only [List.map_cons, List.tail_cons, List.zip_cons_cons] at *
          simp [stringMk_data]
          simpa [stringMk_data] using ih

/-! ## Claim theorems -/

theorem leadsWith_eq_append : ∀ (p cs : List Char), leadsWith p cs = true →
    ∃ t, cs = p ++ t := by
  intro p
  induction p with
  | nil => intro cs _; exact ⟨cs, rfl⟩
  | cons a p ih =>
      intro cs h
      cases cs with
      | nil => simp [leadsWith] at h
      | cons c cs' =>
          simp [leadsWith] at h
          obtain ⟨h1, h2⟩ := h
          subst h1
          obtain ⟨t, ht⟩ := ih cs' h2
          exact ⟨t, by simp [ht]⟩

theorem mem_of_leadsWith (p cs : List Char) (h : leadsWith p cs = true) :
    ∀ x ∈ p, x ∈ cs := by
  obtain ⟨t, ht⟩ := leadsWith_eq_append p cs h
  subst ht
  intro x hx
  exact List.mem_append_left _ hx

theorem splitOnCh_no_sep (sep : Char) : ∀ (cs : List Char), sep ∉ cs →
    splitOnCh sep cs = [cs] := by
  intro cs
  induction cs with
  | nil => intro _; simp [splitOnCh]
  | cons c cs ih =>
      intro h
      simp only [List.mem_cons, not_or] at h
      obtain ⟨h1, h2⟩ := h
      have hc : ¬ c = sep := fun he => h1 he.symm
      simp only [splitOnCh, if_neg hc, ih h2]

theorem lookupAssoc_append {α : Type} (a b : List (String × α)) (k : String) :
    lookupAssoc (a ++ b) k =
      match lookupAssoc a k with
      | some v => some v
      | none => lookupAssoc b k := by
  induction a with
  | nil => simp [lookupAssoc]
  | cons p rest ih =>
      obtain ⟨k', v⟩ := p
      by_cases hk : k' = k
      · simp [lookupAssoc, hk]
      · simp [lookupAssoc, hk, ih]

theorem lookupAssoc_mapLit (fm : List (String × Value)) (k : String) :
    lookupAssoc (fm.map (fun p => (p.1, Expression.literal p.2))) k =
      (lookupAssoc fm k).map Expression.literal := by
  induction fm with
  | nil => simp [lookupAssoc]
  | cons p rest ih =>
      obtain ⟨k', v⟩ := p
      by_cases hk : k' = k
      · simp [lookupAssoc, hk]
      · simp [lookupAssoc, hk, ih]

theorem classify_single (pos : Nat) (content : List Char)
    (hne : content ≠ []) (hdot : '.' ∉ content) (hsp : ' ' ∉ content)
    (hel : content ≠ elseChars) (hend : content ≠ endChars) :
    classifyContent pos content =
      .ok (.expr (mkRaw content) (.variableRef "" (String.mk content))) := by
  have hwhen : ¬ leadsWith whenMark content = true := fun hl =>
    hsp (mem_of_leadsWith _ _ hl ' ' (by decide))
  have henv : ¬ leadsWith envMark content = true := fun hl =>
    hdot (mem_of_leadsWith _ _ hl '.' (by decide))
  have hfn : ¬ leadsWith fnMark content = true := fun hl =>
    hdot (mem_of_leadsWith _ _ hl '.' (by decide))
  have hsplit := splitOnCh_no_sep '.' content hdot
  have hany : ¬ ((splitOnCh '.' content).any (fun p => p.isEmpty) = true) := by
    rw [hsplit]
    simp [List.isEmpty_iff, hne]
  unfold classifyContent
  rw [if_neg hel, if_neg hend, if_neg hwhen, if_neg henv, if_neg hfn, if_neg hany, hsplit]

/-- C8: for every source text, the parser either produces a segment sequence
whose raw spans concatenate back to the entire input — covering it in order
with no gaps and no overlaps — or fails with a single `ParseError`; it never
returns anything else. -/
theorem parser_segments_cover (s : List Char) :
    (∀ segs, parseCh s = .ok segs → rawsOf segs = s) ∧
    ((∃ segs, parseCh s = .ok segs) ∨ (∃ e, parseCh s = .error e)) := by
  refine ⟨fun segs h => parseCh_cov s segs h, ?_⟩
  cases h : parseCh s with
  | ok segs => exact .inl ⟨segs, rfl⟩
  | error e => exact .inr ⟨e, rfl⟩

theorem parser_segments_cover_witness :
    parseCh (['a', '$', obr] ++ "env.X".data ++ [cbr, 'b']) =
      .ok [.lit ['a'],
           .expr (['$', obr] ++ "env.X".data ++ [cbr]) (.envRef (String.mk ['X'])),
           .lit ['b']] ∧
    rawsOf [.lit ['a'],
            .expr (['$', obr] ++ "env.X".data ++ [cbr]) (.envRef (String.mk ['X'])),
            .lit ['b']] =
      (['a', '$', obr] ++ "env.X".data ++ [cbr, 'b']) := by
  have hp : parseCh (['a', '$', obr] ++ "env.X".data ++ [cbr, 'b']) =
      .ok [.lit ['a'],
           .expr (['$', obr] ++ "env.X".data ++ [cbr]) (.envRef (String.mk ['X'])),
           .lit ['b']] := by rfl
  exact ⟨hp, (parser_segments_cover _).1 _ hp⟩

/-- C10: a marker whose content is a single dot-free segment with no
recognized scope prefix parses as a `VariableRef` (not a resource or
environment reference), and resolution looks it up in the render job's
variable bindings — which include the template's front-matter metadata keys —
yielding the bound value when present and
`ResolutionError.unknownVariable` when no binding exists. -/
theorem bare_marker_variableRef (pos : Nat) (content : List Char)
    (hne : content ≠ []) (hdot : '.' ∉ content) (hsp : ' ' ∉ content)
    (hel : content ≠ elseChars) (hend : content ≠ endChars)
    (env dp : String) (inputs : List (String × Expression))
    (fm : List (String × Value)) (envVars : List (String × Value)) (cat : Catalog) :
    classifyContent pos content =
      .ok (.expr (mkRaw content) (.variableRef "" (String.mk content))) ∧
    (∀ v, lookupAssoc inputs (String.mk content) = none →
      lookupAssoc fm (String.mk content) = some v →
      resolve (mkContext env dp inputs fm envVars cat)
        (.variableRef "" (String.mk content)) = .ok v) ∧
    (lookupAssoc inputs (String.mk content) = none →
      lookupAssoc fm (String.mk content) = none →
      resolve (mkContext env dp inputs fm envVars cat)
        (.variableRef "" (String.mk content)) =
        .error (.unknownVariable (String.mk content))) := by
  refine ⟨classify_single pos content hne hdot hsp hel hend, ?_, ?_⟩
  · intro v h1 h2
    have hl : lookupAssoc (mkContext env dp inputs fm envVars cat).vars
        (String.mk content) = some (.literal v) := by
      simp [mkContext, lookupAssoc_append, h1, lookupAssoc_mapLit, h2]
    simp only [resolve, maxResolutionDepth, evaluate]
    rw [hl]
    simp [evaluate]
  · intro h1 h2
    have hl : lookupAssoc (mkContext env dp inputs fm envVars cat).vars
        (String.mk content) = none := by
      simp [mkContext, lookupAssoc_append, h1, lookupAssoc_mapLit, h2]
    simp only [resolve, maxResolutionDepth, evaluate]
    rw [hl]

theorem bare_marker_variableRef_witness :
    classifyContent 0 "python_version".data =
      .ok (.expr (mkRaw "python_version".data) (.variableRef "" "python_version")) ∧
    resolve (mkContext "dev" "postgres" [] [("python_version", .str ">=3.8")] [] [])
      (.variableRef "" "python_version") = .ok (.str ">=3.8") ∧
    resolve (mkContext "dev" "postgres" [] [("python_version", .str ">=3.8")] [] [])
      (.variableRef "" "kafka_topic") = .error (.unknownVariable "kafka_topic") := by
  have h1 := bare_marker_variableRef 0 "python_version".data (by decide) (by decide)
    (by decide) (by decide) (by decide) "dev" "postgres" []
    [("python_version", .str ">=3.8")] [] []
  have h2 := bare_marker_variableRef 0 "kafka_topic".data (by decide) (by decide)
    (by decide) (by decide) (by decide) "dev" "postgres" []
    [("python_version", .str ">=3.8")] [] []
  refine ⟨?_, ?_, ?_⟩
  · simpa [stringMk_data] using h1.1
  · simpa [stringMk_data] using
      h1.2.1 (.str ">=3.8") (by simp [lookupAssoc]) (by simp [lookupAssoc])
  · simpa [stringMk_data] using
      h2.2.2 (by simp [lookupAssoc]) (by simp [lookupAssoc])

/-- C4: for every rendered line carrying a sequencing chain of task
identifiers (written with the `>>` operator), extraction recovers exactly the
adjacent pairs of the chain, in order — each adjacent pair once, no reversed
edge and no transitive edge; document-level extraction is the per-line union
of these edge sets. -/
theorem chain_extraction_exact (ts : List String) (hne : ts ≠ [])
    (h : ∀ t ∈ ts, isIdentTok t.data = true) :
    lineEdges (chainLine ts) = ts.zip ts.tail ∧
    ∀ doc : List Char, extractEdges doc = ((splitOnCh '\n' doc).map lineEdges).flatten := by
  constructor
  · unfold lineEdges
    rw [parseChain_chainLine ts hne h]
    exact zip_map_mk ts
  · intro doc
    rfl

theorem chain_extraction_exact_witness :
    (∀ t ∈ (["extract", "transform", "load"] : List String), isIdentTok t.data = true) ∧
    lineEdges (chainLine ["extract", "transform", "load"]) =
      [("extract", "transform"), ("transform", "load")] ∧
    ("extract", "load") ∉ lineEdges (chainLine ["extract", "transform", "load"]) ∧
    ("transform", "extract") ∉ lineEdges (chainLine ["extract", "transform", "load"]) := by
  have h : ∀ t ∈ (["extract", "transform", "load"] : List String),
      isIdentTok t.data = true := by decide
  have hmain := (chain_extraction_exact ["extract", "transform", "load"] (by simp) h).1
  refine ⟨h, ?_, ?_, ?_⟩
  · rw [hmain]; rfl
  · rw [hmain]; decide
  · rw [hmain]; decide

theorem hasMarker_tail (c : Char) (rest : List Char) (h : hasMarker (c :: rest) = false) :
    hasMarker rest = false := by
  cases rest with
  | nil => rfl
  | cons c2 rest2 =>
      simp [hasMarker] at h
      simp [h.2]

theorem tokenizeF_noMarker : ∀ (fuel pos : Nat) (cs : List Char), cs.length ≤ fuel →
    hasMarker cs = false → tokenizeF pos fuel cs = .ok (cs.map fun c => .lit [c]) := by
  intro fuel
  induction fuel with
  | zero =>
      intro pos cs hlen _
      cases cs with
      | nil => rfl
      | cons c rest => simp at hlen
  | succ n ih =>
      intro pos cs hlen hm
      cases cs with
      | nil => rfl
      | cons c rest =>
          by_cases hc : c = '$'
          · subst hc
            cases rest with
            | nil => simp [tokenizeF]
            | cons c2 rest2 =>
                simp [hasMarker] at hm
                obtain ⟨hob, hm2⟩ := hm
                have hrec := ih (pos + 1) (c2 :: rest2) (by simp at hlen ⊢; omega) (by simp [hm2])
                simp [tokenizeF, hob, hrec]
          · have hrec := ih (pos + 1) rest (by simp at hlen ⊢; omega)
              (hasMarker_tail c rest hm)
            simp [tokenizeF, hc, hrec]

theorem parseSeq_lits : ∀ (cs : List Char) (fuel : Nat), cs.length < fuel →
    parseSeq fuel (cs.map fun c => Token.lit [c]) =
      .ok (cs.map fun c => Segment.lit [c], []) := by
  intro cs
  induction cs with
  | nil =>
      intro fuel hlen
      cases fuel with
      | zero => simp at hlen
      | succ n => simp [parseSeq]
  | cons c rest ih =>
      intro fuel hlen
      cases fuel with
      | zero => simp at hlen
      | succ n =>
          have hrec := ih n (by simp at hlen ⊢; omega)
          simp [parseSeq, hrec]

theorem collectErrors_lits (ctx : ResolutionContext) (cs : List Char) :
    collectErrors ctx (cs.map fun c => Segment.lit [c]) = [] := by
  induction cs with
  | nil => rfl
  | cons c rest ih =>
      unfold collectErrors at ih ⊢
      simp only [List.map_cons, List.filterMap_cons, resolveSeg]
      exact ih

theorem renderPieces_lits (ctx : ResolutionContext) (cs : List Char) :
    renderPieces ctx (cs.map fun c => Segment.lit [c]) = cs := by
  induction cs with
  | nil => rfl
  | cons c rest ih =>
      unfold renderPieces at ih ⊢
      simp only [List.map_cons, List.flatten_cons]
      rw [ih]
      rfl

theorem renderPieces_eq (ctx : ResolutionContext) (segs : List Segment) :
    renderPieces ctx segs = (segs.map fun s =>
      match s with
      | .lit r => r
      | .expr _ e =>
          match resolve ctx e with
          | .ok v => (canon v).data
          | .error _ => []).flatten := by
  unfold renderPieces
  congr 1
  apply List.map_congr_left
  intro s _
  cases s with
  | lit r => rfl
  | expr raw e =>
      cases hres : resolve ctx e with
      | ok v => simp [resolveSeg, hres]
      | error err => simp [resolveSeg, hres]

/-- C1: rendering substitutes only the top-level marker spans — on success the
output is the in-order concatenation in which every literal segment appears
byte-for-byte (line breaks included, since no byte of a literal span is
touched) and every marker span is replaced by its resolved value's canonical
string form; in particular, rendering text containing no marker returns it
byte-for-byte unchanged. -/
theorem render_preserves_nonmarker (ctx : ResolutionContext) (cs : List Char) :
    (hasMarker cs = false → renderCh ctx cs = .ok cs) ∧
    (∀ segs out, parseCh cs = .ok segs → renderCh ctx cs = .ok out →
      out = (segs.map fun s =>
        match s with
        | .lit r => r
        | .expr _ e =>
            match resolve ctx e with
            | .ok v => (canon v).data
            | .error _ => []).flatten) := by
  constructor
  · intro hm
    have htok : tokenize 0 cs = .ok (cs.map fun c => .lit [c]) :=
      tokenizeF_noMarker cs.length 0 cs (Nat.le_refl _) hm
    unfold renderCh parseCh
    rw [htok]
    dsimp only
    rw [parseSeq_lits cs ((cs.map fun c => Token.lit [c]).length + 1) (by simp)]
    dsimp only
    rw [collectErrors_lits]
    dsimp only
    rw [renderPieces_lits]
  · intro segs out hp hr
    unfold renderCh at hr
    rw [hp] at hr
    dsimp only at hr
    cases hcol : collectErrors ctx segs with
    | nil =>
        rw [hcol] at hr
        simp at hr
        rw [← hr, renderPieces_eq]
    | cons e es =>
        rw [hcol] at hr
        simp at hr

theorem render_preserves_nonmarker_witness :
    hasMarker "SELECT 1\nFROM t".data = false ∧
    renderCh prodCtx "SELECT 1\nFROM t".data = .ok "SELECT 1\nFROM t".data := by
  have hm : hasMarker "SELECT 1\nFROM t".data = false := by decide
  exact ⟨hm, (render_preserves_nonmarker prodCtx "SELECT 1\nFROM t".data).1 hm⟩

/-- C3: when a template fails to parse, or at least one of its markers fails
to resolve, rendering produces no output document at all: a parse failure
aborts with that single `ParseError`, and resolution failures abort with the
collection of all resolution errors of that file (in source order, not only
the first); and rendering a batch of files is elementwise — the result for
each file depends only on that file, so a failure in one file leaves every
sibling file's rendering unaffected. -/
theorem render_error_batch (ctx : ResolutionContext) (cs : List Char) :
    (∀ e, parseCh cs = .error e →
      renderCh ctx cs = .error (.parseFailed e) ∧
      ∀ out, renderCh ctx cs ≠ .ok out) ∧
    (∀ segs errs, parseCh cs = .ok segs → collectErrors ctx segs = errs → errs ≠ [] →
      renderCh ctx cs = .error (.resolutionFailed errs) ∧
      ∀ out, renderCh ctx cs ≠ .ok out) ∧
    (∀ (files : List String) (i : Nat),
      (renderBatch ctx files)[i]? = files[i]?.map (render ctx)) := by
  refine ⟨?_, ?_, ?_⟩
  · intro e hpe
    have hmain : renderCh ctx cs = .error (.parseFailed e) := by
      unfold renderCh
      rw [hpe]
    refine ⟨hmain, ?_⟩
    intro out
    rw [hmain]
    simp
  · intro segs errs hp hc hne
    have hmain : renderCh ctx cs = .error (.resolutionFailed errs) := by
      unfold renderCh
      rw [hp]
      dsimp only
      rw [hc]
      cases errs with
      | nil => exact absurd rfl hne
      | cons e es => rfl
    refine ⟨hmain, ?_⟩
    intro out
    rw [hmain]
    simp
  · intro files i
    simp [renderBatch, List.getElem?_map]

theorem render_error_batch_witness :
    parseCh tplUnt = .error ⟨0, String.mk tplUnt, .unterminatedMarker⟩ ∧
    renderCh prodCtx tplUnt =
      .error (.parseFailed ⟨0, String.mk tplUnt, .unterminatedMarker⟩) ∧
    parseCh tplBad = .ok segsBad ∧
    collectErrors prodCtx segsBad = errsBad ∧
    errsBad ≠ [] ∧
    renderCh prodCtx tplBad = .error (.resolutionFailed errsBad) := by
  have hpe : parseCh tplUnt = .error ⟨0, String.mk tplUnt, .unterminatedMarker⟩ := by rfl
  have hp : parseCh tplBad = .ok segsBad := by rfl
  have hc : collectErrors prodCtx segsBad = errsBad := by
    simp [collectErrors, segsBad, errsBad, resolveSeg, resolve, maxResolutionDepth,
      evaluate, prodCtx, mkContext, lookupAssoc]
  have hne : errsBad ≠ [] := by simp [errsBad]
  exact ⟨hpe, ((render_error_batch prodCtx tplUnt).1 _ hpe).1, hp, hc, hne,
    ((render_error_batch prodCtx tplBad).2.1 segsBad errsBad hp hc hne).1⟩

/-- C2: for every `Conditional` expression and every resolution context,
exactly one of the then/else branches is evaluated — the result is the
evaluation of the branch selected by the condition, and the untaken branch is
never evaluated: when the condition holds the result is invariant under
replacing the else branch, and when it fails the result is invariant under
replacing the then branch.  In particular, for every context whose
environment is `"prod"`, a prod/else conditional evaluates only the then
branch and produces no error even when the else branch references variables
or environment values undefined in the context. -/
theorem conditional_one_branch (ctx : ResolutionContext) (fuel : Nat)
    (t e₁ e₂ : Expression) :
    (∀ c tb eb, evaluate ctx fuel (.conditional c tb eb) =
        if condHolds ctx c then evaluate ctx fuel tb else evaluate ctx fuel eb) ∧
    (∀ c tb eb₁ eb₂, condHolds ctx c = true →
        evaluate ctx fuel (.conditional c tb eb₁) =
          evaluate ctx fuel (.conditional c tb eb₂)) ∧
    (∀ c tb₁ tb₂ eb, condHolds ctx c = false →
        evaluate ctx fuel (.conditional c tb₁ eb) =
          evaluate ctx fuel (.conditional c tb₂ eb)) ∧
    (ctx.environment = "prod" →
      evaluate ctx fuel (.conditional (.envEq "prod") t e₁) =
        evaluate ctx fuel (.conditional (.envEq "prod") t e₂) ∧
      ∀ v, evaluate ctx fuel t = .ok v →
        evaluate ctx fuel (.conditional (.envEq "prod") t e₁) = .ok v) := by
  refine ⟨?_, ?_, ?_, ?_⟩
  · intro c tb eb
    simp [evaluate]
  · intro c tb eb₁ eb₂ hc
    simp [evaluate, hc]
  · intro c tb₁ tb₂ eb hc
    simp [evaluate, hc]
  · intro hprod
    have hcond : condHolds ctx (.envEq "prod") = true := by simp [condHolds, hprod]
    constructor
    · simp [evaluate, hcond]
    · intro v hv
      simp [evaluate, hcond, hv]

theorem conditional_one_branch_witness :
    condHolds devCtx (.envEq "prod") = false ∧
    evaluate devCtx 8
        (.conditional (.envEq "prod") (.envRef "UNDEFINED_PROD_URL") (.envRef "DEV_URL")) =
      evaluate devCtx 8
        (.conditional (.envEq "prod") (.literal (.str "other")) (.envRef "DEV_URL")) ∧
    evaluate devCtx 8
        (.conditional (.envEq "prod") (.envRef "UNDEFINED_PROD_URL") (.envRef "DEV_URL")) =
      .ok (.str "localhost") ∧
    prodCtx.environment = "prod" ∧
    evaluate prodCtx 8 (.literal (.str "A")) = .ok (.str "A") ∧
    evaluate prodCtx 8
        (.conditional (.envEq "prod") (.literal (.str "A")) (.envRef "UNDEFINED_URL")) =
      .ok (.str "A") := by
  have hdev : condHolds devCtx (.envEq "prod") = false := by
    simp [condHolds, devCtx, mkContext]
  refine ⟨hdev, ?_, ?_, rfl, by simp [evaluate], ?_⟩
  · exact (conditional_one_branch devCtx 8 (.literal (.str "A")) (.envRef "X")
      (.envRef "X")).2.2.1 (.envEq "prod") (.envRef "UNDEFINED_PROD_URL")
      (.literal (.str "other")) (.envRef "DEV_URL") hdev
  · rw [(conditional_one_branch devCtx 8 (.literal (.str "A")) (.envRef "X")
      (.envRef "X")).1 (.envEq "prod") (.envRef "UNDEFINED_PROD_URL") (.envRef "DEV_URL")]
    simp [condHolds, evaluate, devCtx, mkContext, lookupAssoc]
  · exact ((conditional_one_branch prodCtx 8 (.literal (.str "A")) (.envRef "UNDEFINED_URL")
      (.envRef "UNDEFINED_URL")).2.2.2 rfl).2 (.str "A") (by simp [evaluate])

/-- C6: for every well-formed `CrossProviderRef` whose (provider, kind, name)
triple is absent from the resource catalog, evaluation returns
`ResolutionError.unknownResource`; it never succeeds with an empty or default
value. -/
theorem crossProviderRef_unknown (ctx : ResolutionContext) (fuel : Nat)
    (provider kind name : String) (property : Option String)
    (h : lookupCat ctx.catalog provider kind name = none) :
    evaluate ctx fuel (.crossProviderRef provider kind name property) =
      .error (.unknownResource provider kind name) ∧
    ∀ v, evaluate ctx fuel (.crossProviderRef provider kind name property) ≠ .ok v := by
  constructor
  · simp [evaluate, h]
  · intro v
    simp [evaluate, h]

theorem crossProviderRef_unknown_witness :
    lookupCat noBigqueryCtx.catalog "bigquery" "customers_table" "customers" = none ∧
    resolve noBigqueryCtx
        (.crossProviderRef "bigquery" "customers_table" "customers" (some "dataset")) =
      .error (.unknownResource "bigquery" "customers_table" "customers") := by
  have h : lookupCat noBigqueryCtx.catalog "bigquery" "customers_table" "customers" = none := by
    simp [noBigqueryCtx, mkContext, lookupCat]
  exact ⟨h, (crossProviderRef_unknown noBigqueryCtx maxResolutionDepth "bigquery"
    "customers_table" "customers" (some "dataset") h).1⟩

/-- C7: rendering is deterministic — two calls of `render` with identical
template and context yield identical outputs, and resolution is a pure
function of the (Expression, ResolutionContext) pair: contexts that are equal
resolve every expression identically.  In this model every engine operation
is a mathematical function of its arguments, so no hidden state can
influence a render. -/
theorem render_deterministic (T : String) (ctx : ResolutionContext) :
    render ctx T = render ctx T ∧
    ∀ (e : Expression) (ctx' : ResolutionContext), ctx' = ctx →
      resolve ctx' e = resolve ctx e :=
  ⟨rfl, fun _ _ h => by rw [h]⟩

theorem render_deterministic_witness :
    render prodCtx "SELECT 1" = render prodCtx "SELECT 1" ∧
    resolve prodCtx (.literal (.str "a")) = resolve prodCtx (.literal (.str "a")) :=
  ⟨(render_deterministic "SELECT 1" prodCtx).1,
   (render_deterministic "SELECT 1" prodCtx).2 (.literal (.str "a")) prodCtx rfl⟩

/-- C9: for every expression whose variable-resolution chain is recursive or
self-referential — every variable of a set `S` is bound to another variable
of `S`, which covers direct self-reference (`S = [x]` with `x = x`) and
mutual recursion (e.g. `S = [x, y]` with `x = y`, `y = x`) — evaluation
terminates for every chain-depth budget (it is a total function of the
budget) and returns `ResolutionError.recursionLimitExceeded` once the chain
exceeds the budget; in particular `resolve`, which runs at the maximum
resolution-chain depth, returns that error rather than looping or
overflowing. -/
theorem recursive_chain_limited (ctx : ResolutionContext) (S : List String)
    (hS : ∀ m ∈ S, ∃ sc m', lookupAssoc ctx.vars m = some (.variableRef sc m') ∧ m' ∈ S) :
    (∀ (fuel : Nat) (sc : String), ∀ name ∈ S,
      evaluate ctx fuel (.variableRef sc name) = .error .recursionLimitExceeded) ∧
    (∀ (sc : String), ∀ name ∈ S,
      resolve ctx (.variableRef sc name) = .error .recursionLimitExceeded) := by
  have main : ∀ (fuel : Nat) (sc : String), ∀ name ∈ S,
      evaluate ctx fuel (.variableRef sc name) = .error .recursionLimitExceeded := by
    intro fuel
    induction fuel with
    | zero =>
        intro sc name hname
        obtain ⟨sc', m', hl, hm'⟩ := hS name hname
        simp only [evaluate]
        rw [hl]
    | succ n ih =>
        intro sc name hname
        obtain ⟨sc', m', hl, hm'⟩ := hS name hname
        simp only [evaluate]
        rw [hl]
        exact ih sc' m' hm'
  exact ⟨main, fun sc name hname => main maxResolutionDepth sc name hname⟩

/-- C5: declaring `X depends_on Y` and `Y depends_on X` makes the
dependency-graph builder fail with a `CycleError` whose cycle names both `X`
and `Y` (the minimal offending cycle), producing no graph at all; and the
builder always runs its validation and cycle detection on the full merge of
extracted and declared edges (merge happens first). -/
theorem mutual_depends_on_cycle (X Y : String) (known : String → Bool)
    (hne : X ≠ Y) (hX : known X = true) (hY : known Y = true) :
    (∀ extracted declared, buildGraph known extracted declared =
        buildGraphMerged known (mergeEdges extracted declared)) ∧
    buildGraph known [] [(X, Y), (Y, X)] = .error (.cycleFound ⟨[X, Y]⟩) ∧
    ∀ g, buildGraph known [] [(X, Y), (Y, X)] ≠ .ok g := by
  have hyx : Y ≠ X := Ne.symm hne
  have hmain : buildGraph known [] [(X, Y), (Y, X)] = .error (.cycleFound ⟨[X, Y]⟩) := by
    unfold buildGraph mergeEdges buildGraphMerged detectCycle
    simp [hX, hY, hne, hyx, nodesOf, dfsAll, dfsFrom, succs, List.find?, List.filter,
      List.takeWhile]
  refine ⟨fun _ _ => rfl, hmain, ?_⟩
  intro g
  rw [hmain]
  simp

theorem mutual_depends_on_cycle_witness :
    ("raw_customers" : String) ≠ "customer_analytics" ∧
    buildGraph (fun _ => true) []
        [("raw_customers", "customer_analytics"), ("customer_analytics", "raw_customers")] =
      .error (.cycleFound ⟨["raw_customers", "customer_analytics"]⟩) :=
  ⟨by decide,
   (mutual_depends_on_cycle "raw_customers" "customer_analytics" (fun _ => true)
     (by decide) rfl rfl).2.1⟩

theorem recursive_chain_limited_witness :
    (∀ m ∈ (["x", "y"] : List String), ∃ sc m',
      lookupAssoc mutualRefCtx.vars m = some (.variableRef sc m') ∧
      m' ∈ (["x", "y"] : List String)) ∧
    resolve mutualRefCtx (.variableRef "" "x") = .error .recursionLimitExceeded ∧
    (∀ m ∈ (["x"] : List String), ∃ sc m',
      lookupAssoc selfRefCtx.vars m = some (.variableRef sc m') ∧
      m' ∈ (["x"] : List String)) ∧
    resolve selfRefCtx (.variableRef "" "x") = .error .recursionLimitExceeded := by
  have hS1 : ∀ m ∈ (["x", "y"] : List String), ∃ sc m',
      lookupAssoc mutualRefCtx.vars m = some (.variableRef sc m') ∧
      m' ∈ (["x", "y"] : List String) := by
    intro m hm
    simp only [List.mem_cons, List.not_mem_nil, or_false] at hm
    rcases hm with h | h
    · subst h
      exact ⟨"", "y", by simp [mutualRefCtx, mkContext, lookupAssoc], by simp⟩
    · subst h
      exact ⟨"", "x", by simp [mutualRefCtx, mkContext, lookupAssoc], by simp⟩
  have hS2 : ∀ m ∈ (["x"] : List String), ∃ sc m',
      lookupAssoc selfRefCtx.vars m = some (.variableRef sc m') ∧
      m' ∈ (["x"] : List String) := by
    intro m hm
    simp only [List.mem_cons, List.not_mem_nil, or_false] at hm
    subst hm
    exact ⟨"", "x", by simp [selfRefCtx, mkContext, lookupAssoc], by simp⟩
  exact ⟨hS1, (recursive_chain_limited mutualRefCtx ["x", "y"] hS1).2 "" "x" (by simp),
    hS2, (recursive_chain_limited selfRefCtx ["x"] hS2).2 "" "x" (by simp)⟩

end Kolumn
